import Mathlib

/-!
Shallow embedding of the card-game repository (Go) in Lean 4.

The embedding follows the Go sources function by function:
  - package `card`   : `Card`, `IsValidCard`
  - package `deck` / `cardgame` : `Draw`, `Deal` (state passed explicitly; the
    Go methods mutate the receiver and return an error, modelled here by
    returning the new state together with an `Option String` error)
  - package `pokerhand` : `HandRank`, `HandResult`, `evaluateHand`,
    `CompareHands`, `generateCombinations`, `EvaluateBestHand`
  - package `holdem` : `PlayerHand`, `breakTie`, `DetermineWinner`

Go slices become `List`, Go `int` becomes `Int`, Go value-count maps become
the multiset of comparison values (queried with `List.count`).  Go's
`sort.Slice` on a 5-element slice runs its insertion sort, which is stable;
it is modelled by `List.insertionSort`.
-/

/-- Go `card.Card`: a suit (int constants Spades=0, Hearts=1, Diamonds=2,
Clubs=3) and a value (1..13, 1 = Ace).  Both fields are Go `int`s. -/
structure Card where
  suit : Int
  value : Int
deriving DecidableEq, Repr

instance : Inhabited Card := ⟨⟨0, 0⟩⟩

/-- Go `card.IsValidCard`: suit between Spades and Clubs, value in [1,13]. -/
def IsValidCard (c : Card) : Bool :=
  decide (0 ≤ c.suit) && decide (c.suit ≤ 3) && decide (1 ≤ c.value) && decide (c.value ≤ 13)

/-- Go `pokerhand.HandRank`, an enumeration declared with `iota`. -/
inductive HandRank where
  | HighCard
  | Pair
  | TwoPair
  | ThreeOfAKind
  | Straight
  | Flush
  | FullHouse
  | FourOfAKind
  | StraightFlush
  | RoyalFlush
deriving DecidableEq, Repr, Fintype

/-- The integer value of a `HandRank` (Go's `int(rank)` on the iota enum). -/
def HandRank.toInt : HandRank → Int
  | .HighCard => 0
  | .Pair => 1
  | .TwoPair => 2
  | .ThreeOfAKind => 3
  | .Straight => 4
  | .Flush => 5
  | .FullHouse => 6
  | .FourOfAKind => 7
  | .StraightFlush => 8
  | .RoyalFlush => 9

/-- Go `pokerhand.HandResult`. -/
structure HandResult where
  rank : HandRank
  name : String
  cards : List Card
  highCards : List Int
deriving DecidableEq, Repr

/-- Go `pokerhand.getComparisonValue` (also duplicated on `holdem`):
Ace (value 1) maps to 14, every other value to itself. -/
def getComparisonValue (c : Card) : Int :=
  if c.value = 1 then 14 else c.value

/-- The descending-by-comparison-value order used by `evaluateHand`'s sort
(Go `sort.Slice` with less = `getComparisonValue i > getComparisonValue j`). -/
def byValueDesc (a b : Card) : Prop :=
  getComparisonValue b ≤ getComparisonValue a

instance : DecidableRel byValueDesc := fun a b =>
  inferInstanceAs (Decidable (getComparisonValue b ≤ getComparisonValue a))

instance : IsTotal Card byValueDesc :=
  ⟨fun a b => le_total (getComparisonValue b) (getComparisonValue a)⟩

instance : IsTrans Card byValueDesc :=
  ⟨fun _ _ _ h1 h2 => le_trans h2 h1⟩

/-- The descending order on `Int` used by `checkStraight`'s
`sort.Sort(sort.Reverse(sort.IntSlice(values)))`. -/
def intGE (a b : Int) : Prop := b ≤ a

instance : DecidableRel intGE := fun a b =>
  inferInstanceAs (Decidable (b ≤ a))

instance : IsTotal Int intGE := ⟨fun a b => le_total b a⟩

instance : IsTrans Int intGE := ⟨fun _ _ _ h1 h2 => le_trans h2 h1⟩

instance : IsAntisymm Int intGE := ⟨fun _ _ h1 h2 => le_antisymm h2 h1⟩

/-- The sorting step at the top of Go `pokerhand.evaluateHand`: sort the hand
descending by comparison value.  Go uses `sort.Slice`, which on a 5-element
slice performs a stable insertion sort. -/
def sortHand (hand : List Card) : List Card :=
  List.insertionSort byValueDesc hand

/-- Go `pokerhand.checkFlush`: every card after the first shares the first
card's suit. -/
def checkFlush (hand : List Card) : Bool :=
  hand.tail.all fun c => c.suit == (hand.headD default).suit

/-- Helper used by `isConsecutiveDesc`: Go `checkStraight`'s loop checking
`values[i-1] == values[i]+1` for every adjacent pair. -/
def isConsecutiveDesc : List Int → Bool
  | [] => true
  | [_] => true
  | a :: b :: rest => (a == b + 1) && isConsecutiveDesc (b :: rest)

/-- The body of Go `pokerhand.checkStraight` after the values have been
extracted: sort the comparison values descending, test for a run of
consecutive values, otherwise test for the Ace-low pattern 14,5,4,3,2
(reporting 5 as the straight's high value). -/
def checkStraightValues (values : List Int) : Bool × Int :=
  let sorted := List.insertionSort intGE values
  if isConsecutiveDesc sorted then (true, sorted.headD 0)
  else if sorted.getD 0 0 == 14 && sorted.getD 1 0 == 5 && sorted.getD 2 0 == 4 &&
      sorted.getD 3 0 == 3 && sorted.getD 4 0 == 2 then (true, 5)
  else (false, 0)

/-- Go `pokerhand.checkStraight`: extract the comparison values of the hand
and run the straight test on them. -/
def checkStraight (hand : List Card) : Bool × Int :=
  checkStraightValues (hand.map getComparisonValue)

/-- Go `pokerhand.countValues` builds a map from comparison value to its
multiplicity in the hand; the map is modelled by the list of comparison
values, queried with `List.count`. -/
def countValues (hand : List Card) : List Int :=
  hand.map getComparisonValue

/-- Go `pokerhand.hasFourOfAKind`: some entry of the value-count map is 4.
The map's key set is the set of values occurring in the list. -/
def hasFourOfAKind (values : List Int) : Bool :=
  values.any fun v => values.count v == 4

/-- Go `pokerhand.hasFullHouse`: the value-count map has an entry 3 and an
entry 2 (Go's `else if` is equivalent since no key counts both 3 and 2). -/
def hasFullHouse (values : List Int) : Bool :=
  (values.any fun v => values.count v == 3) && (values.any fun v => values.count v == 2)

/-- Go `pokerhand.hasThreeOfAKind`: some entry of the value-count map is 3. -/
def hasThreeOfAKind (values : List Int) : Bool :=
  values.any fun v => values.count v == 3

/-- Go `pokerhand.countPairs`: the number of keys of the value-count map
whose count is 2, i.e. the number of distinct values occurring twice. -/
def countPairs (values : List Int) : Nat :=
  (values.dedup.filter fun v => values.count v == 2).length

/-- Go `pokerhand.getHighCards`: the comparison values of the first
`count` cards of the hand (fewer if the hand is shorter). -/
def getHighCards (hand : List Card) (count : Nat) : List Int :=
  (hand.take count).map getComparisonValue

/-- Go `pokerhand.cardValueToString`. -/
def cardValueToString (value : Int) : String :=
  if value = 14 then "A"
  else if value = 13 then "K"
  else if value = 12 then "Q"
  else if value = 11 then "J"
  else toString value

/-- Go `pokerhand.evaluateHand`: sort the 5 cards descending by comparison
value, then classify by the fixed priority order, attaching the category's
high-card list.  No input validation of any kind is performed. -/
def evaluateHand (hand : List Card) : HandResult :=
  let sortedHand := sortHand hand
  let isFlush := checkFlush sortedHand
  let straight := checkStraight sortedHand
  if isFlush && straight.1 then
    if straight.2 = 14 then
      ⟨.RoyalFlush, "Royal Flush", sortedHand, [14]⟩
    else
      ⟨.StraightFlush, "Straight Flush", sortedHand, [straight.2]⟩
  else if isFlush then
    ⟨.Flush, "Flush", sortedHand, getHighCards sortedHand 5⟩
  else if straight.1 then
    ⟨.Straight, "Straight", sortedHand, [straight.2]⟩
  else
    let valueCounts := countValues sortedHand
    if hasFourOfAKind valueCounts then
      ⟨.FourOfAKind, "Four of a Kind", sortedHand, getHighCards sortedHand 2⟩
    else if hasFullHouse valueCounts then
      ⟨.FullHouse, "Full House", sortedHand, getHighCards sortedHand 2⟩
    else if hasThreeOfAKind valueCounts then
      ⟨.ThreeOfAKind, "Three of a Kind", sortedHand, getHighCards sortedHand 3⟩
    else if countPairs valueCounts = 2 then
      ⟨.TwoPair, "Two Pair", sortedHand, getHighCards sortedHand 3⟩
    else if countPairs valueCounts = 1 then
      ⟨.Pair, "Pair", sortedHand, getHighCards sortedHand 4⟩
    else
      ⟨.HighCard,
        "High Card " ++ cardValueToString (getComparisonValue (sortedHand.headD default)),
        sortedHand, getHighCards sortedHand 5⟩

/-- The high-card comparison loop of Go `pokerhand.CompareHands`: walk both
lists in parallel up to the shorter length; the first differing pair decides
(by its integer difference); otherwise 0. -/
def compareHighCards : List Int → List Int → Int
  | a :: as, b :: bs => if a ≠ b then a - b else compareHighCards as bs
  | _, _ => 0

/-- Go `pokerhand.CompareHands`: rank difference if the ranks differ,
otherwise the element-by-element high-card comparison. -/
def CompareHands (hand1 hand2 : HandResult) : Int :=
  if hand1.rank ≠ hand2.rank then hand1.rank.toInt - hand2.rank.toInt
  else compareHighCards hand1.highCards hand2.highCards

/-- The recursive closure inside Go `pokerhand.generateCombinations`:
`generate cards k start` returns, in enumeration order, every combination
the Go closure emits below recursion point (`start`, `k`) — i.e. all
ascending-index selections of `k` cards with indices ≥ `start`. -/
def generate {α : Type} [Inhabited α] (cards : List α) : Nat → Nat → List (List α)
  | 0, _ => [[]]
  | k + 1, start =>
    (List.range' start (cards.length - k - start)).flatMap fun i =>
      (generate cards k (i + 1)).map fun combo => cards.getD i default :: combo

/-- Go `pokerhand.generateCombinations`: all k-card combinations of the
input, by recursive backtracking from index 0. -/
def generateCombinations {α : Type} [Inhabited α] (cards : List α) (k : Nat) : List (List α) :=
  generate cards k 0

/-- Structural reference formulation of k-combinations, used to reason
about `generate`: combinations of `a :: l` are those through `a` followed
by those avoiding `a`, matching the backtracking enumeration order. -/
def comb {α : Type} : List α → Nat → List (List α)
  | _, 0 => [[]]
  | [], _ + 1 => []
  | a :: l, k + 1 => ((comb l k).map fun c => a :: c) ++ comb l (k + 1)

/-- The length of the tie-break key `evaluateHand` attaches to each rank. -/
def rankLen : HandRank → Nat
  | .HighCard => 5
  | .Pair => 4
  | .TwoPair => 3
  | .ThreeOfAKind => 3
  | .Straight => 1
  | .Flush => 5
  | .FullHouse => 2
  | .FourOfAKind => 2
  | .StraightFlush => 1
  | .RoyalFlush => 1

/-- A classified hand is well-formed when its tie-break key has its rank's
length; every `evaluateHand` result on a 5-card hand is. -/
def WellFormed (h : HandResult) : Prop :=
  h.highCards.length = rankLen h.rank

/-- The loop body of Go `pokerhand.EvaluateBestHand`: classify the
combination and keep it when it compares strictly greater than the
incumbent best hand. -/
def bestStep (best : HandResult) (combo : List Card) : HandResult :=
  let result := evaluateHand combo
  if CompareHands result best > 0 then result else best

/-- Go `pokerhand.EvaluateBestHand`: error if fewer than 5 cards, otherwise
fold the classifier over every 5-card combination, keeping the incumbent
seeded with a fabricated "High Card" result on the first combination, and
replacing it whenever a strictly better result appears. -/
def EvaluateBestHand (cards : List Card) : Except String HandResult :=
  if cards.length < 5 then .error "not enough cards to evaluate hand"
  else
    let combos := generateCombinations cards 5
    let firstCombo := combos.headD []
    let seed : HandResult := ⟨.HighCard, "High Card", firstCombo, getHighCards firstCombo 5⟩
    let best := combos.foldl
      (fun best combo =>
        let result := evaluateHand combo
        if CompareHands result best > 0 then result else best)
      seed
    .ok best

/-- Go `holdem.PlayerHand`. -/
structure PlayerHand where
  player : Int
  holeCards : List Card
  handResult : HandResult
deriving DecidableEq, Repr

/-- The loop of Go `holdem.breakTie`: walk both hole-card lists in parallel;
return `true` when the second hand's card is strictly higher first (hand2
wins), `false` when the first hand's is, or when the loop falls through. -/
def holeCardDuel : List Card → List Card → Bool
  | c1 :: r1, c2 :: r2 =>
    if getComparisonValue c1 > getComparisonValue c2 then false
    else if getComparisonValue c2 > getComparisonValue c1 then true
    else holeCardDuel r1 r2
  | _, _ => false

/-- Go `holdem.breakTie`: decide between two tied players by comparing their
raw hole cards in order. -/
def breakTie (hand1 hand2 : PlayerHand) : PlayerHand :=
  if holeCardDuel hand1.holeCards hand2.holeCards then hand2 else hand1

/-- Go `holdem.DetermineWinner`: start from the first player, then for each
later player take them when they compare strictly greater, and on an exact
comparator tie fall back to `breakTie`. -/
def DetermineWinner (playerHands : List PlayerHand) : PlayerHand :=
  playerHands.tail.foldl
    (fun winner ph =>
      let comparison := CompareHands ph.handResult winner.handResult
      if comparison > 0 then ph
      else if comparison = 0 then breakTie winner ph
      else winner)
    (playerHands.headD ⟨0, [], ⟨.HighCard, "", [], []⟩⟩)

/-- Go `cardgame.Game` (the `internal/cardgame` package): a deck, the
players' hands, and a reference copy of the original deck. -/
structure Game where
  deck : List Card
  hands : List (List Card)
  referenceDeck : List Card
deriving DecidableEq, Repr

/-- Go `deck.Draw`: error on an empty deck, otherwise remove and return the
first card. -/
def Draw (d : List Card) : Except String (Card × List Card) :=
  match d with
  | [] => .error "no cards left in the deck"
  | c :: rest => .ok (c, rest)

/-- Go `cardgame.Game.Deal` (file `internal/cardgame/cardgame.go`): reject an
out-of-range hand index (with the file's misworded deck error message), draw
from the deck, and append the drawn card to the selected hand.  The Go method
mutates the receiver and returns an `error`; here the resulting state is
returned together with an optional error message. -/
def Deal (g : Game) (handIndex : Int) : Game × Option String :=
  if handIndex < 0 ∨ (g.hands.length : Int) ≤ handIndex then
    (g, some "no cards left in the deck")
  else
    match Draw g.deck with
    | .error e => (g, some e)
    | .ok (c, rest) =>
      ({ g with
          deck := rest
          hands := g.hands.set handIndex.toNat (g.hands.getD handIndex.toNat [] ++ [c]) },
        none)

/-- A classification produced by the classifier on a shared royal-flush
board, used to exhibit hole-card dependence of winner resolution. -/
def sharedBoardResult : HandResult :=
  evaluateHand [⟨0, 1⟩, ⟨0, 13⟩, ⟨0, 12⟩, ⟨0, 11⟩, ⟨0, 10⟩]

/-- Player 1 with hole cards K hearts, 2 diamonds and the shared board
classification. -/
def playerOne : PlayerHand := ⟨1, [⟨1, 13⟩, ⟨2, 2⟩], sharedBoardResult⟩

/-- Player 2 with hole cards A hearts, 2 clubs and the same classification
as player 1. -/
def playerTwoAceHole : PlayerHand := ⟨2, [⟨1, 1⟩, ⟨3, 2⟩], sharedBoardResult⟩

/-- Player 2 with hole cards Q hearts, 2 clubs and the same classification
as player 1. -/
def playerTwoQueenHole : PlayerHand := ⟨2, [⟨1, 12⟩, ⟨3, 2⟩], sharedBoardResult⟩

/-- Claim C1: at the spec's own example hand 2 hearts, 2 diamonds, 2 clubs,
5 spades, 5 hearts the classifier does return rank FullHouse, but its
tie-break key is the first two sorted comparison values [5, 5] (the pair
duplicated, the triple absent), not the [2, 5] (triple value then pair
value) that the specification states. -/
theorem fullhouse_code_tiebreak :
    (evaluateHand [⟨1, 2⟩, ⟨2, 2⟩, ⟨3, 2⟩, ⟨0, 5⟩, ⟨1, 5⟩]).rank = HandRank.FullHouse ∧
    (evaluateHand [⟨1, 2⟩, ⟨2, 2⟩, ⟨3, 2⟩, ⟨0, 5⟩, ⟨1, 5⟩]).highCards = [5, 5] ∧
    ([5, 5] : List Int) ≠ [2, 5] := by
  decide

set_option maxRecDepth 8000 in
/-- Claim C2: on a 5-card four-of-a-kind whose kicker outranks the quad the
classifier's tie-break key is [kicker, quad], and on 7 cards holding four 9s
plus an Ace, a 7 and a 3, `EvaluateBestHand` returns rank FourOfAKind with
tie-break [14, 9] — kicker first — not the [9, 14] (quad value first) that
the specification states. -/
theorem fourofakind_code_tiebreak :
    (evaluateHand [⟨0, 9⟩, ⟨1, 9⟩, ⟨2, 9⟩, ⟨3, 9⟩, ⟨0, 1⟩]).rank = HandRank.FourOfAKind ∧
    (evaluateHand [⟨0, 9⟩, ⟨1, 9⟩, ⟨2, 9⟩, ⟨3, 9⟩, ⟨0, 1⟩]).highCards = [14, 9] ∧
    (EvaluateBestHand [⟨0, 9⟩, ⟨1, 9⟩, ⟨2, 9⟩, ⟨3, 9⟩, ⟨0, 1⟩, ⟨1, 7⟩, ⟨2, 3⟩]).toOption.map
        (fun r => (r.rank, r.highCards)) = some (HandRank.FourOfAKind, [14, 9]) ∧
    ([14, 9] : List Int) ≠ [9, 14] := by
  decide

/-- Claim C4: winner resolution does inspect raw hole cards when two
players' classifications compare Equal.  With identical classifications
(compare = 0), changing only player 2's first hole card from an Ace to a
Queen flips the selected winner from player 2 to player 1. -/
theorem winner_depends_on_hole_cards :
    CompareHands playerTwoAceHole.handResult playerOne.handResult = 0 ∧
    playerTwoAceHole.handResult = playerTwoQueenHole.handResult ∧
    (DetermineWinner [playerOne, playerTwoAceHole]).player = 2 ∧
    (DetermineWinner [playerOne, playerTwoQueenHole]).player = 1 := by
  decide

/-- Claim C5 (counterexample): the classifier signals no InvalidHandSize
error — on a 4-card input it silently returns a complete High Card
classification instead of failing. -/
theorem classifier_no_error_on_invalid_size :
    evaluateHand [⟨0, 2⟩, ⟨1, 3⟩, ⟨2, 4⟩, ⟨3, 6⟩] =
      ⟨HandRank.HighCard, "High Card 6",
        [⟨3, 6⟩, ⟨2, 4⟩, ⟨1, 3⟩, ⟨0, 2⟩], [6, 4, 3, 2]⟩ := by
  decide

/-- Claim C5 (amended): the classifier performs no input validation at all:
a 4-card hand is classified as High Card rather than rejected, and a 5-card
hand containing the out-of-domain card (suit 9, value 9) is classified
normally rather than rejected with an InvalidCard error. -/
theorem classifier_performs_no_validation :
    (evaluateHand [⟨0, 2⟩, ⟨1, 3⟩, ⟨2, 4⟩, ⟨3, 6⟩]).rank = HandRank.HighCard ∧
    (evaluateHand [⟨0, 2⟩, ⟨1, 3⟩, ⟨2, 4⟩, ⟨3, 6⟩]).highCards = [6, 4, 3, 2] ∧
    IsValidCard ⟨9, 9⟩ = false ∧
    (evaluateHand [⟨9, 9⟩, ⟨0, 2⟩, ⟨0, 3⟩, ⟨0, 4⟩, ⟨0, 5⟩]).rank = HandRank.HighCard ∧
    (evaluateHand [⟨9, 9⟩, ⟨0, 2⟩, ⟨0, 3⟩, ⟨0, 4⟩, ⟨0, 5⟩]).highCards = [9, 5, 4, 3, 2] := by
  decide

/-- Claim C7 (counterexample): two orderings of the same 5-card multiset do
not yield the same ClassifiedHand: swapping the two 5-valued cards in the
input swaps them in the stably sorted `cards` sequence of the result. -/
theorem classification_not_permutation_equal :
    ([⟨0, 5⟩, ⟨1, 5⟩, ⟨2, 7⟩, ⟨3, 3⟩, ⟨0, 2⟩] : List Card).Perm
      [⟨1, 5⟩, ⟨0, 5⟩, ⟨2, 7⟩, ⟨3, 3⟩, ⟨0, 2⟩] ∧
    evaluateHand [⟨0, 5⟩, ⟨1, 5⟩, ⟨2, 7⟩, ⟨3, 3⟩, ⟨0, 2⟩] ≠
      evaluateHand [⟨1, 5⟩, ⟨0, 5⟩, ⟨2, 7⟩, ⟨3, 3⟩, ⟨0, 2⟩] := by
  exact ⟨List.Perm.swap _ _ _, by decide⟩

/-- Claim C10: `Deal` is atomic on error — an out-of-range hand index
returns an error with the state untouched — and a successful in-range deal
removes exactly the first deck card, appends exactly that card to the
selected hand, and leaves every other hand (and the reference deck)
unchanged.  An in-range deal from an empty deck also errors with the state
untouched. -/
theorem deal_atomic_spec (g : Game) (i : Int) :
    ((i < 0 ∨ (g.hands.length : Int) ≤ i) → Deal g i = (g, some "no cards left in the deck")) ∧
    (0 ≤ i → i < (g.hands.length : Int) →
      (g.deck = [] → Deal g i = (g, some "no cards left in the deck")) ∧
      ∀ c rest, g.deck = c :: rest →
        Deal g i =
          ({ deck := rest,
             hands := g.hands.set i.toNat (g.hands.getD i.toNat [] ++ [c]),
             referenceDeck := g.referenceDeck }, none) ∧
        (g.hands.set i.toNat (g.hands.getD i.toNat [] ++ [c]))[i.toNat]? =
          some (g.hands.getD i.toNat [] ++ [c]) ∧
        ∀ j : Nat, j ≠ i.toNat →
          (g.hands.set i.toNat (g.hands.getD i.toNat [] ++ [c]))[j]? = g.hands[j]?) := by
  constructor
  · intro h
    unfold Deal
    rw [if_pos h]
  · intro h0 h1
    have hcond : ¬(i < 0 ∨ (g.hands.length : Int) ≤ i) := by omega
    constructor
    · intro hd
      unfold Deal
      rw [if_neg hcond, hd]
      rfl
    · intro c rest hd
      have hlt : i.toNat < g.hands.length := by omega
      refine ⟨?_, ?_, ?_⟩
      · unfold Deal
        rw [if_neg hcond, hd]
        rfl
      · exact List.getElem?_set_self hlt
      · intro j hj
        exact List.getElem?_set_ne (Ne.symm hj)

/-- Witness for claim C10 at a concrete game: index 5 is out of range and
leaves the state untouched; index 1 deals the first deck card to hand 1. -/
theorem deal_atomic_spec_witness :
    Deal ⟨[⟨0, 1⟩, ⟨0, 2⟩], [[], [⟨1, 1⟩]], []⟩ 5 =
      (⟨[⟨0, 1⟩, ⟨0, 2⟩], [[], [⟨1, 1⟩]], []⟩, some "no cards left in the deck") ∧
    Deal ⟨[⟨0, 1⟩, ⟨0, 2⟩], [[], [⟨1, 1⟩]], []⟩ 1 =
      (⟨[⟨0, 2⟩], [[], [⟨1, 1⟩, ⟨0, 1⟩]], []⟩, none) := by
  constructor
  · exact (deal_atomic_spec ⟨[⟨0, 1⟩, ⟨0, 2⟩], [[], [⟨1, 1⟩]], []⟩ 5).1 (by decide)
  · exact (((deal_atomic_spec ⟨[⟨0, 1⟩, ⟨0, 2⟩], [[], [⟨1, 1⟩]], []⟩ 1).2 (by decide)
      (by decide)).2 ⟨0, 1⟩ [⟨0, 2⟩] rfl).1

theorem compareHighCards_self : ∀ l : List Int, compareHighCards l l = 0
  | [] => rfl
  | a :: as => by simp [compareHighCards, compareHighCards_self as]

theorem compareHighCards_antisym : ∀ a b : List Int, compareHighCards a b = -compareHighCards b a
  | [], [] => rfl
  | [], _ :: _ => rfl
  | _ :: _, [] => rfl
  | a :: as, b :: bs => by
    by_cases h : a = b
    · subst h
      simp [compareHighCards, compareHighCards_antisym as bs]
    · simp only [compareHighCards]
      rw [if_pos h, if_pos (Ne.symm h)]
      omega

theorem CompareHands_self (x : HandResult) : CompareHands x x = 0 := by
  simp [CompareHands, compareHighCards_self]

theorem CompareHands_antisym (x y : HandResult) : CompareHands x y = -CompareHands y x := by
  by_cases h : x.rank = y.rank
  · simp [CompareHands, h, compareHighCards_antisym x.highCards y.highCards]
  · unfold CompareHands
    rw [if_pos h, if_pos (Ne.symm h)]
    omega

theorem compareHighCards_first_diff : ∀ (i : Nat) (a b : List Int),
    (∀ j : Nat, j < i → a.getD j 0 = b.getD j 0) → i < a.length → i < b.length →
    a.getD i 0 ≠ b.getD i 0 → compareHighCards a b = a.getD i 0 - b.getD i 0
  | _, [], _, _, ha, _, _ => by simp at ha
  | _, _ :: _, [], _, _, hb, _ => by simp at hb
  | 0, a :: as, b :: bs, _, _, _, hne => by
    simp only [List.getD_cons_zero] at hne ⊢
    simp [compareHighCards, hne]
  | i + 1, a :: as, b :: bs, hj, ha, hb, hne => by
    have h0 : a = b := by
      have := hj 0 (Nat.succ_pos i)
      simpa using this
    subst h0
    have ha' : i < as.length := by simp at ha; omega
    have hb' : i < bs.length := by simp at hb; omega
    have hne' : as.getD i 0 ≠ bs.getD i 0 := by
      simpa [List.getD_cons_succ] using hne
    have hj' : ∀ j : Nat, j < i → as.getD j 0 = bs.getD j 0 := by
      intro j hji
      have := hj (j + 1) (by omega)
      simpa [List.getD_cons_succ] using this
    have ih := compareHighCards_first_diff i as bs hj' ha' hb' hne'
    simp [compareHighCards, List.getD_cons_succ, ih]

/-- Claim C8: the comparator orders classified hands by rank enumeration
order first (a strictly higher rank always yields a positive comparison
regardless of tie-break values); on equal ranks it is exactly the
element-by-element tie-break comparison where the first differing index
decides; every comparison lands in exactly one of the three sign classes
(its value is a single integer, so the three cases exclude each other),
comparison is antisymmetric, and every hand compares Equal to itself. -/
theorem compare_hands_total_order (x y : HandResult) :
    CompareHands x x = 0 ∧
    (0 < CompareHands x y ∨ CompareHands x y = 0 ∨ CompareHands x y < 0) ∧
    CompareHands x y = -CompareHands y x ∧
    (x.rank ≠ y.rank → CompareHands x y = x.rank.toInt - y.rank.toInt) ∧
    (y.rank.toInt < x.rank.toInt → 0 < CompareHands x y) ∧
    (x.rank = y.rank → CompareHands x y = compareHighCards x.highCards y.highCards) ∧
    (x.rank = y.rank →
      ∀ i : Nat, (∀ j : Nat, j < i → x.highCards.getD j 0 = y.highCards.getD j 0) →
        i < x.highCards.length → i < y.highCards.length →
        x.highCards.getD i 0 ≠ y.highCards.getD i 0 →
        CompareHands x y = x.highCards.getD i 0 - y.highCards.getD i 0) := by
  refine ⟨CompareHands_self x, by omega, CompareHands_antisym x y, ?_, ?_, ?_, ?_⟩
  · intro h
    unfold CompareHands
    rw [if_pos h]
  · intro h
    have hne : x.rank ≠ y.rank := by
      intro he
      rw [he] at h
      omega
    unfold CompareHands
    rw [if_pos hne]
    omega
  · intro h
    unfold CompareHands
    rw [if_neg (fun hn => hn h)]
  · intro h i hj hi hiy hne
    have hfd := compareHighCards_first_diff i x.highCards y.highCards hj hi hiy hne
    unfold CompareHands
    rw [if_neg (fun hn => hn h), hfd]

/-- Witness for claim C8: a Flush beats a Straight by rank alone, and two
Flushes with tie-break keys differing first at index 4 are decided there. -/
theorem compare_hands_total_order_witness :
    CompareHands ⟨HandRank.Flush, "Flush", [], [10, 9, 8, 7, 2]⟩
        ⟨HandRank.Straight, "Straight", [], [9]⟩ =
      HandRank.Flush.toInt - HandRank.Straight.toInt ∧
    0 < CompareHands ⟨HandRank.Flush, "Flush", [], [10, 9, 8, 7, 2]⟩
        ⟨HandRank.Straight, "Straight", [], [9]⟩ ∧
    CompareHands ⟨HandRank.Flush, "Flush", [], [10, 9, 8, 7, 2]⟩
        ⟨HandRank.Flush, "Flush", [], [10, 9, 8, 7, 3]⟩ =
      compareHighCards [10, 9, 8, 7, 2] [10, 9, 8, 7, 3] ∧
    CompareHands ⟨HandRank.Flush, "Flush", [], [10, 9, 8, 7, 2]⟩
        ⟨HandRank.Flush, "Flush", [], [10, 9, 8, 7, 3]⟩ =
      ([10, 9, 8, 7, 2] : List Int).getD 4 0 - ([10, 9, 8, 7, 3] : List Int).getD 4 0 := by
  refine ⟨?_, ?_, ?_, ?_⟩
  · exact (compare_hands_total_order _ _).2.2.2.1 (by decide)
  · exact (compare_hands_total_order _ _).2.2.2.2.1 (by decide)
  · exact (compare_hands_total_order _ _).2.2.2.2.2.1 rfl
  · exact (compare_hands_total_order
      ⟨HandRank.Flush, "Flush", [], [10, 9, 8, 7, 2]⟩
      ⟨HandRank.Flush, "Flush", [], [10, 9, 8, 7, 3]⟩).2.2.2.2.2.2 rfl 4
      (by decide) (by decide) (by decide) (by decide)

theorem insertionSort_int_congr {v1 v2 : List Int} (h : v1.Perm v2) :
    List.insertionSort intGE v1 = List.insertionSort intGE v2 :=
  List.eq_of_perm_of_sorted
    ((List.perm_insertionSort intGE v1).trans (h.trans (List.perm_insertionSort intGE v2).symm))
    (List.sorted_insertionSort intGE v1)
    (List.sorted_insertionSort intGE v2)

theorem checkStraight_sortHand (hand : List Card) :
    checkStraight (sortHand hand) = checkStraight hand := by
  have hp : ((sortHand hand).map getComparisonValue).Perm (hand.map getComparisonValue) :=
    List.Perm.map getComparisonValue (List.perm_insertionSort byValueDesc hand)
  unfold checkStraight checkStraightValues
  rw [insertionSort_int_congr hp]

theorem isConsecutiveDesc_iff :
    ∀ l : List Int, isConsecutiveDesc l = true ↔ List.Chain' (fun a b => a = b + 1) l
  | [] => by simp [isConsecutiveDesc]
  | [a] => by simp [isConsecutiveDesc]
  | a :: b :: rest => by
    rw [List.chain'_cons, ← isConsecutiveDesc_iff (b :: rest)]
    simp [isConsecutiveDesc]

theorem checkFlush_eq_true_iff (l : List Card) :
    checkFlush l = true ↔ ∀ x ∈ l, ∀ y ∈ l, x.suit = y.suit := by
  cases l with
  | nil => simp [checkFlush]
  | cons a t =>
    simp only [checkFlush, List.tail_cons, List.headD_cons]
    rw [List.all_eq_true]
    constructor
    · intro h x hx y hy
      have hs : ∀ z ∈ t, z.suit = a.suit := fun z hz => by simpa using h z hz
      have hx' : x.suit = a.suit := by
        rcases List.mem_cons.mp hx with rfl | hx2
        · rfl
        · exact hs x hx2
      have hy' : y.suit = a.suit := by
        rcases List.mem_cons.mp hy with rfl | hy2
        · rfl
        · exact hs y hy2
      rw [hx', hy']
    · intro h z hz
      have := h z (List.mem_cons_of_mem a hz) a (List.mem_cons_self a t)
      simpa using this

theorem checkFlush_eq_false_of (l : List Card)
    (h : ∃ c1 ∈ l, ∃ c2 ∈ l, c1.suit ≠ c2.suit) : checkFlush l = false := by
  cases hb : checkFlush l
  · rfl
  · obtain ⟨c1, h1, c2, h2, hne⟩ := h
    exact absurd ((checkFlush_eq_true_iff l).mp hb c1 h1 c2 h2) hne

/-- Claim C6: on a 5-card hand the straight check succeeds exactly when the
comparison values sorted descending are strictly consecutive or are (as a
multiset) the Ace-low set 14,5,4,3,2; the Ace-low case reports high value 5
(so a mixed-suit A-2-3-4-5 hand classifies as Straight with tie-break [5]),
and a one-suit straight whose reported high value is 14 classifies as
RoyalFlush. -/
theorem straight_check_spec (hand : List Card) (h5 : hand.length = 5)
    (hv : ∀ c ∈ hand, IsValidCard c = true) :
    ((checkStraight hand).1 = true ↔
      List.Chain' (fun a b => a = b + 1)
        (List.insertionSort intGE (hand.map getComparisonValue)) ∨
      (hand.map getComparisonValue).Perm [14, 5, 4, 3, 2]) ∧
    ((hand.map getComparisonValue).Perm [14, 5, 4, 3, 2] →
      checkStraight hand = (true, 5)) ∧
    ((hand.map getComparisonValue).Perm [14, 5, 4, 3, 2] →
      (∃ c1 ∈ hand, ∃ c2 ∈ hand, c1.suit ≠ c2.suit) →
      (evaluateHand hand).rank = HandRank.Straight ∧ (evaluateHand hand).highCards = [5]) ∧
    ((∀ c1 ∈ hand, ∀ c2 ∈ hand, c1.suit = c2.suit) → (checkStraight hand).1 = true →
      (checkStraight hand).2 = 14 →
      (evaluateHand hand).rank = HandRank.RoyalFlush ∧
      (evaluateHand hand).highCards = [14]) := by
  have hvlen : (hand.map getComparisonValue).length = 5 := by
    rw [List.length_map]
    exact h5
  have hslen : (List.insertionSort intGE (hand.map getComparisonValue)).length = 5 := by
    rw [List.length_insertionSort]
    exact hvlen
  have hcs : checkStraight hand =
      (let s := List.insertionSort intGE (hand.map getComparisonValue)
       if isConsecutiveDesc s then (true, s.headD 0)
       else if s.getD 0 0 == 14 && s.getD 1 0 == 5 && s.getD 2 0 == 4 &&
           s.getD 3 0 == 3 && s.getD 4 0 == 2 then (true, 5)
       else (false, 0)) := rfl
  have hpatiff : (List.insertionSort intGE (hand.map getComparisonValue)).getD 0 0 == 14 &&
        (List.insertionSort intGE (hand.map getComparisonValue)).getD 1 0 == 5 &&
        (List.insertionSort intGE (hand.map getComparisonValue)).getD 2 0 == 4 &&
        (List.insertionSort intGE (hand.map getComparisonValue)).getD 3 0 == 3 &&
        (List.insertionSort intGE (hand.map getComparisonValue)).getD 4 0 == 2 ↔
      List.insertionSort intGE (hand.map getComparisonValue) = [14, 5, 4, 3, 2] := by
    rcases hsl : List.insertionSort intGE (hand.map getComparisonValue) with
      _ | ⟨a, _ | ⟨b, _ | ⟨c, _ | ⟨d, _ | ⟨e, rest⟩⟩⟩⟩⟩ <;>
      rw [hsl] at hslen <;> simp at hslen
    obtain rfl : rest = [] := hslen
    simp [List.getD_cons_zero, List.getD_cons_succ]
    tauto
  have hpermiff : (hand.map getComparisonValue).Perm [14, 5, 4, 3, 2] ↔
      List.insertionSort intGE (hand.map getComparisonValue) = [14, 5, 4, 3, 2] := by
    constructor
    · intro hp
      rw [insertionSort_int_congr hp]
      decide
    · intro he
      exact he ▸ (List.perm_insertionSort intGE (hand.map getComparisonValue)).symm
  have hq : (hand.map getComparisonValue).Perm [14, 5, 4, 3, 2] →
      checkStraight hand = (true, 5) := by
    intro hp
    have hseq := hpermiff.mp hp
    have hconf : isConsecutiveDesc (List.insertionSort intGE (hand.map getComparisonValue)) =
        false := by rw [hseq]; decide
    have hpatt := hpatiff.mpr hseq
    rw [hcs]
    simp only [hconf, Bool.false_eq_true, if_false]
    rw [if_pos hpatt]
  refine ⟨?_, hq, ?_, ?_⟩
  · cases hcon : isConsecutiveDesc (List.insertionSort intGE (hand.map getComparisonValue)) with
    | true =>
      constructor
      · intro _
        exact Or.inl ((isConsecutiveDesc_iff _).mp hcon)
      · intro _
        rw [hcs]
        simp [hcon]
    | false =>
      constructor
      · intro hc
        rw [hcs] at hc
        simp only [hcon, Bool.false_eq_true, if_false] at hc
        by_cases hpat : (List.insertionSort intGE (hand.map getComparisonValue)).getD 0 0 == 14 &&
            (List.insertionSort intGE (hand.map getComparisonValue)).getD 1 0 == 5 &&
            (List.insertionSort intGE (hand.map getComparisonValue)).getD 2 0 == 4 &&
            (List.insertionSort intGE (hand.map getComparisonValue)).getD 3 0 == 3 &&
            (List.insertionSort intGE (hand.map getComparisonValue)).getD 4 0 == 2
        · exact Or.inr (hpermiff.mpr (hpatiff.mp hpat))
        · rw [if_neg hpat] at hc
          simp at hc
      · intro hc
        rcases hc with hch | hpm
        · exact absurd ((isConsecutiveDesc_iff _).mpr hch) (by simp [hcon])
        · rw [hq hpm]
  · intro hp hmix
    have hstr : checkStraight (sortHand hand) = (true, 5) :=
      (checkStraight_sortHand hand).trans (hq hp)
    have hmem : ∀ x : Card, x ∈ sortHand hand ↔ x ∈ hand := fun x =>
      (List.perm_insertionSort byValueDesc hand).mem_iff
    have hfl : checkFlush (sortHand hand) = false := by
      apply checkFlush_eq_false_of
      obtain ⟨c1, h1, c2, h2, hne⟩ := hmix
      exact ⟨c1, (hmem c1).mpr h1, c2, (hmem c2).mpr h2, hne⟩
    constructor <;> simp [evaluateHand, hfl, hstr]
  · intro hsame hst1 hst2
    have hpair : checkStraight hand = (true, 14) := by
      rcases hcv : checkStraight hand with ⟨b, v⟩
      rw [hcv] at hst1 hst2
      simp at hst1 hst2
      rw [hst1, hst2]
    have hstr : checkStraight (sortHand hand) = (true, 14) :=
      (checkStraight_sortHand hand).trans hpair
    have hmem : ∀ x : Card, x ∈ sortHand hand ↔ x ∈ hand := fun x =>
      (List.perm_insertionSort byValueDesc hand).mem_iff
    have hfl : checkFlush (sortHand hand) = true := by
      rw [checkFlush_eq_true_iff]
      intro x hx y hy
      exact hsame x ((hmem x).mp hx) y ((hmem y).mp hy)
    constructor <;> simp [evaluateHand, hfl, hstr]

/-- Witness for claim C6: the mixed-suit hand A spades, 2 hearts, 3
diamonds, 4 clubs, 5 spades is an Ace-low Straight with tie-break [5], and
the one-suit hand 10-J-Q-K-A of spades is a RoyalFlush. -/
theorem straight_check_spec_witness :
    checkStraight [⟨0, 1⟩, ⟨1, 2⟩, ⟨2, 3⟩, ⟨3, 4⟩, ⟨0, 5⟩] = (true, 5) ∧
    (evaluateHand [⟨0, 1⟩, ⟨1, 2⟩, ⟨2, 3⟩, ⟨3, 4⟩, ⟨0, 5⟩]).rank = HandRank.Straight ∧
    (evaluateHand [⟨0, 1⟩, ⟨1, 2⟩, ⟨2, 3⟩, ⟨3, 4⟩, ⟨0, 5⟩]).highCards = [5] ∧
    (evaluateHand [⟨0, 10⟩, ⟨0, 11⟩, ⟨0, 12⟩, ⟨0, 13⟩, ⟨0, 1⟩]).rank = HandRank.RoyalFlush ∧
    (evaluateHand [⟨0, 10⟩, ⟨0, 11⟩, ⟨0, 12⟩, ⟨0, 13⟩, ⟨0, 1⟩]).highCards = [14] := by
  have h1 := straight_check_spec [⟨0, 1⟩, ⟨1, 2⟩, ⟨2, 3⟩, ⟨3, 4⟩, ⟨0, 5⟩] (by decide) (by decide)
  have h2 := straight_check_spec [⟨0, 10⟩, ⟨0, 11⟩, ⟨0, 12⟩, ⟨0, 13⟩, ⟨0, 1⟩]
    (by decide) (by decide)
  have hp : (([⟨0, 1⟩, ⟨1, 2⟩, ⟨2, 3⟩, ⟨3, 4⟩, ⟨0, 5⟩] : List Card).map
      getComparisonValue).Perm [14, 5, 4, 3, 2] := by decide
  have hmix : ∃ c1 ∈ ([⟨0, 1⟩, ⟨1, 2⟩, ⟨2, 3⟩, ⟨3, 4⟩, ⟨0, 5⟩] : List Card),
      ∃ c2 ∈ ([⟨0, 1⟩, ⟨1, 2⟩, ⟨2, 3⟩, ⟨3, 4⟩, ⟨0, 5⟩] : List Card), c1.suit ≠ c2.suit := by
    exact ⟨⟨0, 1⟩, by decide, ⟨1, 2⟩, by decide, by decide⟩
  have hroyal := h2.2.2.2 (by decide) (by decide) (by decide)
  exact ⟨h1.2.1 hp, (h1.2.2.1 hp hmix).1, (h1.2.2.1 hp hmix).2, hroyal.1, hroyal.2⟩

theorem mem_sortHand (l : List Card) (x : Card) : x ∈ sortHand l ↔ x ∈ l :=
  (List.perm_insertionSort byValueDesc l).mem_iff

theorem sortHand_perm (l : List Card) : (sortHand l).Perm l :=
  List.perm_insertionSort byValueDesc l

theorem getComparisonValue_headD (l : List Card) (d : Card) :
    getComparisonValue (l.headD d) = (l.map getComparisonValue).headD (getComparisonValue d) := by
  cases l <;> rfl

theorem map_val_sortHand_congr {l1 l2 : List Card} (h : l1.Perm l2) :
    (sortHand l1).map getComparisonValue = (sortHand l2).map getComparisonValue := by
  apply List.eq_of_perm_of_sorted (r := intGE)
  · exact List.Perm.map getComparisonValue
      (((sortHand_perm l1).trans h).trans (sortHand_perm l2).symm)
  · exact List.Pairwise.map getComparisonValue (fun a b hab => hab)
      (List.sorted_insertionSort byValueDesc l1)
  · exact List.Pairwise.map getComparisonValue (fun a b hab => hab)
      (List.sorted_insertionSort byValueDesc l2)

theorem checkFlush_sortHand_congr {l1 l2 : List Card} (h : l1.Perm l2) :
    checkFlush (sortHand l1) = checkFlush (sortHand l2) := by
  have hiff : checkFlush (sortHand l1) = true ↔ checkFlush (sortHand l2) = true := by
    rw [checkFlush_eq_true_iff, checkFlush_eq_true_iff]
    constructor <;> intro hall x hx y hy
    · exact hall x ((mem_sortHand l1 x).mpr (h.symm.subset ((mem_sortHand l2 x).mp hx)))
        y ((mem_sortHand l1 y).mpr (h.symm.subset ((mem_sortHand l2 y).mp hy)))
    · exact hall x ((mem_sortHand l2 x).mpr (h.subset ((mem_sortHand l1 x).mp hx)))
        y ((mem_sortHand l2 y).mpr (h.subset ((mem_sortHand l1 y).mp hy)))
  cases hb1 : checkFlush (sortHand l1) <;> cases hb2 : checkFlush (sortHand l2) <;> simp_all

set_option maxHeartbeats 2000000 in
/-- Claim C7 (amended): classification is invariant under permutation of the
input cards up to the order of equal-valued cards: two orderings of the same
multiset yield the same rank, the same name, the same tie-break key, and
`cards` sequences that are permutations of each other — but not necessarily
the identical `cards` sequence, because the stable descending sort keeps
equal-valued cards in their input order. -/
theorem classification_perm_invariant (l1 l2 : List Card) (h : l1.Perm l2) :
    (evaluateHand l1).rank = (evaluateHand l2).rank ∧
    (evaluateHand l1).name = (evaluateHand l2).name ∧
    (evaluateHand l1).highCards = (evaluateHand l2).highCards ∧
    (evaluateHand l1).cards.Perm (evaluateHand l2).cards := by
  have hv : (sortHand l1).map getComparisonValue = (sortHand l2).map getComparisonValue :=
    map_val_sortHand_congr h
  have hf : checkFlush (sortHand l1) = checkFlush (sortHand l2) :=
    checkFlush_sortHand_congr h
  have hs : checkStraight (sortHand l1) = checkStraight (sortHand l2) := by
    unfold checkStraight checkStraightValues
    rw [hv]
  have hcv : countValues (sortHand l1) = countValues (sortHand l2) := by
    unfold countValues
    exact hv
  have hh : ∀ k, getHighCards (sortHand l1) k = getHighCards (sortHand l2) k := by
    intro k
    unfold getHighCards
    rw [List.map_take, List.map_take, hv]
  have hd : getComparisonValue ((sortHand l1).headD default) =
      getComparisonValue ((sortHand l2).headD default) := by
    rw [getComparisonValue_headD, getComparisonValue_headD, hv]
  have hp : (sortHand l1).Perm (sortHand l2) :=
    ((sortHand_perm l1).trans h).trans (sortHand_perm l2).symm
  refine ⟨?_, ?_, ?_, ?_⟩
  all_goals simp only [evaluateHand]
  all_goals rw [hf, hs, hcv, hh 5, hh 2, hh 3, hh 4, hd]
  · split_ifs <;> rfl
  · split_ifs <;> rfl
  · split_ifs <;> rfl
  · split_ifs <;> exact hp

/-- Witness for claim C7 (amended) at two orderings of one 5-card multiset
differing in the order of the two 5-valued cards. -/
theorem classification_perm_invariant_witness :
    (evaluateHand [⟨0, 5⟩, ⟨1, 5⟩, ⟨2, 7⟩, ⟨3, 3⟩, ⟨0, 2⟩]).rank =
      (evaluateHand [⟨1, 5⟩, ⟨0, 5⟩, ⟨2, 7⟩, ⟨3, 3⟩, ⟨0, 2⟩]).rank ∧
    (evaluateHand [⟨0, 5⟩, ⟨1, 5⟩, ⟨2, 7⟩, ⟨3, 3⟩, ⟨0, 2⟩]).name =
      (evaluateHand [⟨1, 5⟩, ⟨0, 5⟩, ⟨2, 7⟩, ⟨3, 3⟩, ⟨0, 2⟩]).name ∧
    (evaluateHand [⟨0, 5⟩, ⟨1, 5⟩, ⟨2, 7⟩, ⟨3, 3⟩, ⟨0, 2⟩]).highCards =
      (evaluateHand [⟨1, 5⟩, ⟨0, 5⟩, ⟨2, 7⟩, ⟨3, 3⟩, ⟨0, 2⟩]).highCards ∧
    (evaluateHand [⟨0, 5⟩, ⟨1, 5⟩, ⟨2, 7⟩, ⟨3, 3⟩, ⟨0, 2⟩]).cards.Perm
      (evaluateHand [⟨1, 5⟩, ⟨0, 5⟩, ⟨2, 7⟩, ⟨3, 3⟩, ⟨0, 2⟩]).cards :=
  classification_perm_invariant _ _ (List.Perm.swap _ _ _)

theorem comb_length {α : Type} : ∀ (l : List α) (k : Nat), (comb l k).length = l.length.choose k
  | _, 0 => by simp [comb]
  | [], k + 1 => by simp [comb]
  | a :: l, k + 1 => by
    simp [comb, comb_length l k, comb_length l (k + 1), Nat.choose_succ_succ]

theorem comb_mem {α : Type} : ∀ (l : List α) (k : Nat) (c : List α),
    c ∈ comb l k ↔ c.Sublist l ∧ c.length = k
  | l, 0, c => by
    simp only [comb, List.mem_singleton]
    constructor
    · rintro rfl
      exact ⟨List.nil_sublist l, rfl⟩
    · rintro ⟨_, hl⟩
      exact List.length_eq_zero.mp hl
  | [], k + 1, c => by
    simp only [comb, List.not_mem_nil, false_iff, not_and]
    intro hs
    rw [List.sublist_nil.mp hs]
    simp
  | a :: l, k + 1, c => by
    simp only [comb, List.mem_append, List.mem_map]
    constructor
    · rintro (⟨c', hc', rfl⟩ | hc)
      · obtain ⟨hs, hl⟩ := (comb_mem l k c').mp hc'
        exact ⟨List.Sublist.cons₂ a hs, by simp [hl]⟩
      · obtain ⟨hs, hl⟩ := (comb_mem l (k + 1) c).mp hc
        exact ⟨List.Sublist.cons a hs, hl⟩
    · rintro ⟨hs, hl⟩
      rcases List.sublist_cons_iff.mp hs with hs' | ⟨r, rfl, hr⟩
      · exact Or.inr ((comb_mem l (k + 1) c).mpr ⟨hs', hl⟩)
      · exact Or.inl ⟨r, (comb_mem l k r).mpr ⟨hr, by simpa using hl⟩, rfl⟩

theorem comb_nodup {α : Type} : ∀ (l : List α), l.Nodup → ∀ k, (comb l k).Nodup
  | _, _, 0 => by simp [comb]
  | [], _, k + 1 => by simp [comb]
  | a :: l, h, k + 1 => by
    have ha : a ∉ l := (List.nodup_cons.mp h).1
    have hn : l.Nodup := (List.nodup_cons.mp h).2
    simp only [comb]
    apply List.Nodup.append
    · exact (comb_nodup l hn k).map fun x y hxy => by simpa using hxy
    · exact comb_nodup l hn (k + 1)
    · intro x hx hy
      obtain ⟨c', _, rfl⟩ := List.mem_map.mp hx
      have hsub := ((comb_mem l (k + 1) (a :: c')).mp hy).1
      exact ha (hsub.subset (List.mem_cons_self a c'))

theorem comb_map {α β : Type} (f : α → β) :
    ∀ (l : List α) (k : Nat), comb (l.map f) k = (comb l k).map (List.map f)
  | _, 0 => by simp [comb]
  | [], k + 1 => by simp [comb]
  | a :: l, k + 1 => by
    simp only [List.map_cons, comb, List.map_append, comb_map f l k, comb_map f l (k + 1),
      List.map_map, Function.comp_def]

theorem comb_pairwise_lex : ∀ (l : List Nat), List.Pairwise (· < ·) l →
    ∀ k, List.Pairwise (List.Lex (· < ·)) (comb l k)
  | _, _, 0 => by simp [comb]
  | [], _, k + 1 => by simp [comb]
  | a :: l, h, k + 1 => by
    have hlt : ∀ b ∈ l, a < b := (List.pairwise_cons.mp h).1
    have hp : List.Pairwise (· < ·) l := (List.pairwise_cons.mp h).2
    simp only [comb]
    rw [List.pairwise_append]
    refine ⟨?_, comb_pairwise_lex l hp (k + 1), ?_⟩
    · rw [List.pairwise_map]
      exact (comb_pairwise_lex l hp k).imp fun hxy => List.Lex.cons hxy
    · intro x hx y hy
      obtain ⟨c', _, rfl⟩ := List.mem_map.mp hx
      have hy' := (comb_mem l (k + 1) y).mp hy
      rcases y with _ | ⟨b, ys⟩
      · exact absurd hy'.2 (by simp)
      · have hb : b ∈ l := hy'.1.subset (List.mem_cons_self b ys)
        exact List.Lex.rel (hlt b hb)

theorem comb_eq_nil_of_length_lt {α : Type} : ∀ (l : List α) (k : Nat), l.length < k → comb l k = []
  | _, 0, h => absurd h (by omega)
  | [], _ + 1, _ => rfl
  | a :: l, k + 1, h => by
    have hlen : l.length < k := by
      simp only [List.length_cons] at h
      omega
    simp [comb, comb_eq_nil_of_length_lt l k hlen,
      comb_eq_nil_of_length_lt l (k + 1) (by omega)]

theorem generate_eq_comb {α : Type} [Inhabited α] (cards : List α) :
    ∀ (k start : Nat), generate cards k start = comb (cards.drop start) k := by
  intro k
  induction k with
  | zero =>
    intro start
    simp [generate, comb]
  | succ k ih =>
    have main : ∀ (m start : Nat), cards.length - start ≤ m →
        generate cards (k + 1) start = comb (cards.drop start) (k + 1) := by
      intro m
      induction m with
      | zero =>
        intro start hle
        have hdrop : cards.drop start = [] := List.drop_eq_nil_of_le (by omega)
        have hcnt : cards.length - k - start = 0 := by omega
        rw [hdrop]
        simp only [generate, hcnt]
        rfl
      | succ m ihm =>
        intro start hle
        by_cases hstart : cards.length ≤ start
        · have hdrop : cards.drop start = [] := List.drop_eq_nil_of_le hstart
          have hcnt : cards.length - k - start = 0 := by omega
          rw [hdrop]
          simp only [generate, hcnt]
          rfl
        · by_cases hcnt0 : cards.length - k - start = 0
          · have hlt : (cards.drop start).length < k + 1 := by
              rw [List.length_drop]
              omega
            rw [comb_eq_nil_of_length_lt _ _ hlt]
            simp only [generate, hcnt0]
            rfl
          · obtain ⟨cnt, hcnt⟩ : ∃ cnt, cards.length - k - start = cnt + 1 :=
              ⟨cards.length - k - start - 1, by omega⟩
            have hstart' : start < cards.length := by omega
            have hdrop : cards.drop start = cards[start] :: cards.drop (start + 1) :=
              List.drop_eq_getElem_cons hstart'
            have htail : (List.range' (start + 1) cnt).flatMap
                (fun i => (generate cards k (i + 1)).map fun combo =>
                  cards.getD i default :: combo) =
                generate cards (k + 1) (start + 1) := by
              simp only [generate]
              rw [show cards.length - k - (start + 1) = cnt from by omega]
            simp only [generate]
            rw [hcnt, List.range'_succ, List.flatMap_cons, htail,
              ihm (start + 1) (by omega), ih (start + 1), hdrop,
              List.getD_eq_getElem cards default hstart']
            rfl
    intro start
    exact main (cards.length - start) start le_rfl

theorem generateCombinations_eq_comb {α : Type} [Inhabited α] (l : List α) (k : Nat) :
    generateCombinations l k = comb l k := by
  rw [generateCombinations, generate_eq_comb, List.drop_zero]

theorem list_eq_range_map {α : Type} [Inhabited α] (l : List α) :
    l = (List.range l.length).map fun i => l.getD i default := by
  apply List.ext_getElem
  · simp
  · intro i h1 h2
    rw [List.getElem_map]
    rw [List.getElem_range]
    rw [List.getD_eq_getElem l default h1]

/-- Claim C9: on a duplicate-free input of n ≥ 5 cards the combination
generator with k = 5 yields exactly C(n,5) combinations, each a 5-element
order-preserving sublist of the input, with no duplicated combination and
none omitted; the enumeration equals the index-list enumeration on
0..n-1 mapped through the input, and that index enumeration is strictly
increasing in lexicographic order. -/
theorem combination_generator_spec (cards : List Card) (hnd : cards.Nodup)
    (hn : 5 ≤ cards.length) :
    (generateCombinations cards 5).length = cards.length.choose 5 ∧
    (∀ c ∈ generateCombinations cards 5, c.length = 5 ∧ c.Sublist cards) ∧
    (generateCombinations cards 5).Nodup ∧
    (∀ c : List Card, c.Sublist cards → c.length = 5 → c ∈ generateCombinations cards 5) ∧
    generateCombinations cards 5 =
      (generateCombinations (List.range cards.length) 5).map
        (fun idxs => idxs.map fun i => cards.getD i default) ∧
    List.Pairwise (List.Lex (· < ·)) (generateCombinations (List.range cards.length) 5) := by
  refine ⟨?_, ?_, ?_, ?_, ?_, ?_⟩
  · rw [generateCombinations_eq_comb]
    exact comb_length cards 5
  · intro c hc
    rw [generateCombinations_eq_comb] at hc
    have h := (comb_mem cards 5 c).mp hc
    exact ⟨h.2, h.1⟩
  · rw [generateCombinations_eq_comb]
    exact comb_nodup cards hnd 5
  · intro c hs hl
    rw [generateCombinations_eq_comb]
    exact (comb_mem cards 5 c).mpr ⟨hs, hl⟩
  · rw [generateCombinations_eq_comb, generateCombinations_eq_comb]
    conv_lhs => rw [list_eq_range_map cards]
    rw [comb_map]
  · rw [generateCombinations_eq_comb]
    exact comb_pairwise_lex (List.range cards.length) (List.pairwise_lt_range cards.length) 5

/-- Witness for claim C9 at a concrete duplicate-free 7-card input: exactly
21 combinations, and the index enumeration on 7 inputs is lexicographically
increasing. -/
theorem combination_generator_spec_witness :
    (generateCombinations
      ([⟨0, 9⟩, ⟨1, 9⟩, ⟨2, 9⟩, ⟨3, 9⟩, ⟨0, 1⟩, ⟨1, 7⟩, ⟨2, 3⟩] : List Card) 5).length = 21 ∧
    List.Pairwise (List.Lex (· < ·)) (generateCombinations (List.range 7) 5) := by
  have h := combination_generator_spec
    ([⟨0, 9⟩, ⟨1, 9⟩, ⟨2, 9⟩, ⟨3, 9⟩, ⟨0, 1⟩, ⟨1, 7⟩, ⟨2, 3⟩] : List Card)
    (by decide) (by decide)
  exact ⟨h.1.trans (by decide), h.2.2.2.2.2⟩

theorem toInt_nonneg : ∀ r : HandRank, 0 ≤ r.toInt := by decide

theorem toInt_inj : ∀ a b : HandRank, a.toInt = b.toInt → a = b := by decide

theorem toInt_pos_of_ne : ∀ r : HandRank, r ≠ HandRank.HighCard → 0 < r.toInt := by decide

set_option maxHeartbeats 2000000 in
theorem evaluateHand_wf (hand : List Card) (h5 : hand.length = 5) :
    WellFormed (evaluateHand hand) := by
  have hs5 : (sortHand hand).length = 5 := by
    rw [sortHand, List.length_insertionSort]
    exact h5
  simp only [WellFormed, evaluateHand]
  split_ifs <;> simp [rankLen, getHighCards, hs5]

theorem compareHighCards_nonneg_trans : ∀ (a b c : List Int),
    a.length = b.length → b.length = c.length →
    0 ≤ compareHighCards a b → 0 ≤ compareHighCards b c → 0 ≤ compareHighCards a c
  | [], [], [], _, _, _, _ => by simp [compareHighCards]
  | [], [], _ :: _, _, h2, _, _ => by simp at h2
  | [], _ :: _, _, h1, _, _, _ => by simp at h1
  | _ :: _, [], _, h1, _, _, _ => by simp at h1
  | _ :: _, _ :: _, [], _, h2, _, _ => by simp at h2
  | a :: as, b :: bs, c :: cs, h1, h2, hab, hbc => by
    simp only [List.length_cons] at h1 h2
    simp only [compareHighCards] at hab hbc ⊢
    by_cases hab' : a = b <;> by_cases hbc' : b = c
    · subst hab'
      subst hbc'
      rw [if_neg (fun hn => hn rfl)] at hab hbc ⊢
      exact compareHighCards_nonneg_trans as bs cs (by omega) (by omega) hab hbc
    · subst hab'
      rw [if_pos hbc'] at hbc
      rw [if_pos hbc'] at *
      omega
    · subst hbc'
      rw [if_pos hab'] at hab
      rw [if_pos hab'] at *
      omega
    · rw [if_pos hab'] at hab
      rw [if_pos hbc'] at hbc
      have hac : a ≠ c := by omega
      rw [if_pos hac]
      omega

theorem CompareHands_nonneg_trans (x y z : HandResult)
    (hx : WellFormed x) (hy : WellFormed y) (hz : WellFormed z)
    (hxy : 0 ≤ CompareHands x y) (hyz : 0 ≤ CompareHands y z) :
    0 ≤ CompareHands x z := by
  have key : ∀ a b : HandRank, a ≠ b → HandRank.toInt a ≠ HandRank.toInt b :=
    fun a b hab he => hab (toInt_inj a b he)
  unfold CompareHands at hxy hyz ⊢
  by_cases h1 : x.rank = y.rank <;> by_cases h2 : y.rank = z.rank
  · have h3 : x.rank = z.rank := h1.trans h2
    rw [if_neg (fun hn => hn h1)] at hxy
    rw [if_neg (fun hn => hn h2)] at hyz
    rw [if_neg (fun hn => hn h3)]
    have l1 : x.highCards.length = y.highCards.length := by
      rw [hx, hy, h1]
    have l2 : y.highCards.length = z.highCards.length := by
      rw [hy, hz, h2]
    exact compareHighCards_nonneg_trans _ _ _ l1 l2 hxy hyz
  · rw [if_pos h2] at hyz
    have hyzlt := key y.rank z.rank h2
    have hxz : x.rank ≠ z.rank := by
      intro he
      rw [← h1, he] at hyzlt
      omega
    rw [if_pos hxz, h1]
    omega
  · rw [if_pos h1] at hxy
    have hxylt := key x.rank y.rank h1
    have hxz : x.rank ≠ z.rank := by
      intro he
      rw [h2] at hxylt
      rw [he] at hxy hxylt
      omega
    rw [if_pos hxz, ← h2]
    omega
  · rw [if_pos h1] at hxy
    rw [if_pos h2] at hyz
    have hxylt := key x.rank y.rank h1
    have hyzlt := key y.rank z.rank h2
    have hxz : x.rank ≠ z.rank := by
      intro he
      rw [he] at hxy hxylt
      omega
    rw [if_pos hxz]
    omega

theorem compareHighCards_sorted_perm_nonneg : ∀ (s l : List Int), s.Perm l →
    List.Sorted intGE s → 0 ≤ compareHighCards s l
  | [], l, _, _ => by cases l <;> simp [compareHighCards]
  | a :: s, l, hp, hs => by
    have hl : l ≠ [] := by
      intro h
      subst h
      simpa using hp.length_eq
    obtain ⟨b, l', rfl⟩ : ∃ b l', l = b :: l' := by
      cases l with
      | nil => exact absurd rfl hl
      | cons b l' => exact ⟨b, l', rfl⟩
    have hba : b ≤ a := by
      have hbmem : b ∈ a :: s := hp.symm.subset (List.mem_cons_self b l')
      rcases List.mem_cons.mp hbmem with rfl | hmem
      · exact le_refl b
      · exact (List.pairwise_cons.mp hs).1 b hmem
    by_cases hab : a = b
    · subst hab
      have hp' : s.Perm l' := hp.cons_inv
      have hs' : List.Sorted intGE s := (List.pairwise_cons.mp hs).2
      have hred : compareHighCards (a :: s) (a :: l') = compareHighCards s l' := by
        simp [compareHighCards]
      rw [hred]
      exact compareHighCards_sorted_perm_nonneg s l' hp' hs'
    · simp only [compareHighCards]
      rw [if_pos hab]
      omega

theorem evaluateHand_highCard_highCards (hand : List Card)
    (hr : (evaluateHand hand).rank = HandRank.HighCard) :
    (evaluateHand hand).highCards = getHighCards (sortHand hand) 5 := by
  revert hr
  simp only [evaluateHand]
  split_ifs <;> simp

theorem evaluateHand_ge_seed (combo : List Card) (h5 : combo.length = 5) :
    0 ≤ CompareHands (evaluateHand combo)
      ⟨HandRank.HighCard, "High Card", combo, getHighCards combo 5⟩ := by
  have hs5 : (sortHand combo).length = 5 := by
    rw [sortHand, List.length_insertionSort]
    exact h5
  by_cases hr : (evaluateHand combo).rank = HandRank.HighCard
  · have hhc := evaluateHand_highCard_highCards combo hr
    unfold CompareHands
    rw [if_neg (fun hn => hn hr), hhc]
    have ht1 : (sortHand combo).take 5 = sortHand combo := by
      rw [← hs5]
      exact List.take_length _
    have ht2 : combo.take 5 = combo := by
      rw [← h5]
      exact List.take_length _
    unfold getHighCards
    rw [ht1, ht2]
    apply compareHighCards_sorted_perm_nonneg
    · exact List.Perm.map getComparisonValue (sortHand_perm combo)
    · exact List.Pairwise.map getComparisonValue (fun a b hab => hab)
        (List.sorted_insertionSort byValueDesc combo)
  · unfold CompareHands
    rw [if_pos hr]
    have h0 := toInt_pos_of_ne (evaluateHand combo).rank hr
    have hseed : HandRank.toInt
        (⟨HandRank.HighCard, "High Card", combo, getHighCards combo 5⟩ : HandResult).rank = 0 :=
      rfl
    omega

theorem fold_spec : ∀ (combos : List (List Card)) (best : HandResult),
    WellFormed best → (∀ c ∈ combos, c.length = 5) →
    WellFormed (combos.foldl bestStep best) ∧
    (combos.foldl bestStep best = best ∨
      ∃ c ∈ combos, combos.foldl bestStep best = evaluateHand c) ∧
    (∀ c ∈ combos, 0 ≤ CompareHands (combos.foldl bestStep best) (evaluateHand c)) ∧
    0 ≤ CompareHands (combos.foldl bestStep best) best
  | [], best, hwf, _ => by
    refine ⟨hwf, Or.inl rfl, by simp, ?_⟩
    simp [CompareHands_self]
  | c :: cs, best, hwf, hall => by
    have hc5 : c.length = 5 := hall c (List.mem_cons_self c cs)
    have hcs : ∀ x ∈ cs, x.length = 5 := fun x hx => hall x (List.mem_cons_of_mem c hx)
    have hwf' : WellFormed (bestStep best c) := by
      simp only [bestStep]
      split_ifs
      · exact evaluateHand_wf c hc5
      · exact hwf
    have hb'best : 0 ≤ CompareHands (bestStep best c) best := by
      simp only [bestStep]
      split_ifs with h
      · omega
      · simp [CompareHands_self]
    have hb'c : 0 ≤ CompareHands (bestStep best c) (evaluateHand c) := by
      simp only [bestStep]
      split_ifs with h
      · simp [CompareHands_self]
      · have := CompareHands_antisym best (evaluateHand c)
        have := CompareHands_antisym (evaluateHand c) best
        omega
    obtain ⟨Hwf, Hor, Hall, Hbest⟩ := fold_spec cs (bestStep best c) hwf' hcs
    have hfold : (c :: cs).foldl bestStep best = cs.foldl bestStep (bestStep best c) := rfl
    rw [hfold]
    refine ⟨Hwf, ?_, ?_, ?_⟩
    · rcases Hor with heq | ⟨x, hx, heq⟩
      · by_cases hstep : CompareHands (evaluateHand c) best > 0
        · refine Or.inr ⟨c, List.mem_cons_self c cs, ?_⟩
          rw [heq]
          simp only [bestStep]
          rw [if_pos hstep]
        · have hbb : bestStep best c = best := by
            unfold bestStep
            rw [if_neg hstep]
          exact Or.inl (heq.trans hbb)
      · exact Or.inr ⟨x, List.mem_cons_of_mem c hx, heq⟩
    · intro x hx
      rcases List.mem_cons.mp hx with rfl | hx'
      · exact CompareHands_nonneg_trans _ _ _ Hwf hwf' (evaluateHand_wf x hc5) Hbest hb'c
      · exact Hall x hx'
    · exact CompareHands_nonneg_trans _ _ _ Hwf hwf' hwf Hbest hb'best

/-- Claim C3: with fewer than 5 cards `EvaluateBestHand` fails with the
insufficient-cards error and returns no hand; with n ≥ 5 cards it returns a
classified hand that compares greater than or equal to the classification
of every generated 5-card combination and compares equal to at least one of
them. -/
theorem evaluate_best_spec (cards : List Card) :
    (cards.length < 5 →
      EvaluateBestHand cards = Except.error "not enough cards to evaluate hand") ∧
    (5 ≤ cards.length → ∃ best, EvaluateBestHand cards = Except.ok best ∧
      (∀ combo ∈ generateCombinations cards 5, 0 ≤ CompareHands best (evaluateHand combo)) ∧
      (∃ combo ∈ generateCombinations cards 5, CompareHands best (evaluateHand combo) = 0)) := by
  constructor
  · intro h
    unfold EvaluateBestHand
    rw [if_pos h]
  · intro h
    have hnl : ¬cards.length < 5 := by omega
    have hcombos : ∀ c ∈ generateCombinations cards 5, c.length = 5 := by
      intro c hc
      rw [generateCombinations_eq_comb] at hc
      exact ((comb_mem cards 5 c).mp hc).2
    have hclen : (generateCombinations cards 5).length = cards.length.choose 5 := by
      rw [generateCombinations_eq_comb]
      exact comb_length cards 5
    have hpos : 0 < (generateCombinations cards 5).length := by
      rw [hclen]
      exact Nat.choose_pos h
    obtain ⟨c0, cs, hc0⟩ : ∃ c0 cs, generateCombinations cards 5 = c0 :: cs := by
      cases hgc : generateCombinations cards 5 with
      | nil =>
        rw [hgc] at hpos
        simp at hpos
      | cons c0 cs => exact ⟨c0, cs, rfl⟩
    have hc0mem : c0 ∈ generateCombinations cards 5 := by
      rw [hc0]
      exact List.mem_cons_self c0 cs
    have hc05 : c0.length = 5 := hcombos c0 hc0mem
    have hwfseed : WellFormed
        (⟨HandRank.HighCard, "High Card", c0, getHighCards c0 5⟩ : HandResult) := by
      unfold WellFormed getHighCards
      simp [rankLen, hc05]
    have hEB : EvaluateBestHand cards = Except.ok
        ((c0 :: cs).foldl bestStep ⟨HandRank.HighCard, "High Card", c0, getHighCards c0 5⟩) := by
      unfold EvaluateBestHand
      rw [if_neg hnl, hc0]
      rfl
    obtain ⟨Hwf, Hor, Hall, Hbest⟩ := fold_spec (c0 :: cs)
      ⟨HandRank.HighCard, "High Card", c0, getHighCards c0 5⟩ hwfseed
      (by rw [← hc0]; exact hcombos)
    refine ⟨_, hEB, ?_, ?_⟩
    · intro combo hcm
      rw [hc0] at hcm
      exact Hall combo hcm
    · rcases Hor with heq | ⟨x, hx, heq⟩
      · refine ⟨c0, hc0mem, ?_⟩
        have h1 := Hall c0 (List.mem_cons_self c0 cs)
        have h2 := evaluateHand_ge_seed c0 hc05
        have h3 := CompareHands_antisym (evaluateHand c0)
          ⟨HandRank.HighCard, "High Card", c0, getHighCards c0 5⟩
        rw [heq] at h1 ⊢
        omega
      · refine ⟨x, by rw [hc0]; exact hx, ?_⟩
        rw [heq, CompareHands_self]

/-- Witness for claim C3: a 4-card input errors, and the 7-card input with
four 9s returns a best hand dominating all 21 combinations and matching at
least one of them. -/
theorem evaluate_best_spec_witness :
    EvaluateBestHand ([⟨0, 2⟩, ⟨1, 3⟩, ⟨2, 4⟩, ⟨3, 6⟩] : List Card) =
      Except.error "not enough cards to evaluate hand" ∧
    (∃ best, EvaluateBestHand
        ([⟨0, 9⟩, ⟨1, 9⟩, ⟨2, 9⟩, ⟨3, 9⟩, ⟨0, 1⟩, ⟨1, 7⟩, ⟨2, 3⟩] : List Card) =
          Except.ok best ∧
      (∀ combo ∈ generateCombinations
          ([⟨0, 9⟩, ⟨1, 9⟩, ⟨2, 9⟩, ⟨3, 9⟩, ⟨0, 1⟩, ⟨1, 7⟩, ⟨2, 3⟩] : List Card) 5,
        0 ≤ CompareHands best (evaluateHand combo)) ∧
      (∃ combo ∈ generateCombinations
          ([⟨0, 9⟩, ⟨1, 9⟩, ⟨2, 9⟩, ⟨3, 9⟩, ⟨0, 1⟩, ⟨1, 7⟩, ⟨2, 3⟩] : List Card) 5,
        CompareHands best (evaluateHand combo) = 0)) :=
  ⟨(evaluate_best_spec ([⟨0, 2⟩, ⟨1, 3⟩, ⟨2, 4⟩, ⟨3, 6⟩] : List Card)).1 (by decide),
   (evaluate_best_spec
      ([⟨0, 9⟩, ⟨1, 9⟩, ⟨2, 9⟩, ⟨3, 9⟩, ⟨0, 1⟩, ⟨1, 7⟩, ⟨2, 3⟩] : List Card)).2 (by decide)⟩
